import Mathlib

/-!
Verification of the schematics model layer (`schematics/models.py`).

The development shallowly embeds the code of `models.py` (the metaclass
schema compilation, the field descriptor, the model state, indexed access,
equality with a memo, and mock generation) and, where `models.py` calls
into modules that are not part of the sources (`transforms.convert`,
`validate.validate`, `datastructures.OrderedDict`, the field types), models
those collaborators from the specification, as marked in doc comments.

`Model._convert` as staged binds `**kwargs` but reads the unbound name
`kw` (models.py:224, 234), so every call into it raises `NameError`; the
embeddings of `__init__`, `validate` and `get_mock_object` reproduce that
defect (`modelConvertRun`), while the walk of the absent
`transforms`/`validate` modules is kept, modelled from the spec, as the
behaviour those entry points would reach were the defect fixed.
-/

namespace SchemaCompile

/-- One declared field as seen by the metaclass: `hint` is the field
instance's `_position_hint` (a global counter incremented at each field
instantiation, so ancestors' declarations carry smaller hints than a
subclass's declarations), and `defId` identifies the particular definition
(so that an override by a descendant is a *different* definition for the
same name). -/
structure DeclField where
  hint : Nat
  defId : Nat
deriving DecidableEq, Repr

/-- An ordered mapping of field name to declared field, insertion ordered. -/
abbrev Decls := List (String × DeclField)

/-- Modelled from the spec: `datastructures.OrderedDict` is not among the
sources; per the spec a Schema's `fields` is an "ordered mapping name →
FieldUnit (insertion order ..., unique keys)".  `odSet` is one key
assignment: an existing key keeps its position and gets the new value, a
fresh key is appended at the end. -/
def odSet : Decls → String → DeclField → Decls
  | [], k, v => [(k, v)]
  | (k', v') :: rest, k, v =>
    if k' = k then (k', v) :: rest else (k', v') :: odSet rest k v

/-- `OrderedDict.update`: assign every binding of `new` into `base` in
order (`fields.update(deepcopy(base._schema.fields))` in
`ModelMeta.__new__`, and the per-attribute `fields[key] = value` loop). -/
def odUpdate (base new : Decls) : Decls :=
  new.foldl (fun acc kv => odSet acc kv.1 kv.2) base

/-- The sort key used by `ModelMeta.__new__`:
`fields.sort(key=lambda i: i[1]._position_hint)`. -/
def hintLe (a b : String × DeclField) : Prop :=
  a.2.hint ≤ b.2.hint

instance : DecidableRel hintLe :=
  fun a b => inferInstanceAs (Decidable (a.2.hint ≤ b.2.hint))

instance : IsTotal (String × DeclField) hintLe :=
  ⟨fun a b => Nat.le_total a.2.hint b.2.hint⟩

instance : IsTrans (String × DeclField) hintLe :=
  ⟨fun _ _ _ h1 h2 => Nat.le_trans h1 h2⟩

/-- The accumulation phase of `ModelMeta.__new__`: fold the already
compiled field maps of the bases, oldest ancestor first
(`for base in reversed(bases): fields.update(...)`), then assign the
class's own declared attributes (`fields[key] = value`). -/
def mergeFields (parents : List Decls) (own : Decls) : Decls :=
  odUpdate (parents.foldl odUpdate []) own

/-- `ModelMeta.__new__`: accumulate ancestor fields and own declarations,
then `fields.sort(key=lambda i: i[1]._position_hint)` — a stable sort of
the items by the position hint of the *effective* (possibly overriding)
field instance. -/
def compileFields (parents : List Decls) (own : Decls) : Decls :=
  List.insertionSort hintLe (mergeFields parents own)

/-- Base class declaring `id` then `title` (global hints 0 and 1). -/
def exBase : Decls :=
  compileFields [] [("id", ⟨0, 0⟩), ("title", ⟨1, 1⟩)]

/-- Subclass declaring `year` (hint 2) and then redeclaring `title`
(hint 3, a new definition `defId = 3`). -/
def exSubYearFirst : Decls :=
  [("year", ⟨2, 2⟩), ("title", ⟨3, 3⟩)]

/-- Subclass redeclaring `title` first (hint 2, new definition) and then
declaring `year` (hint 3) — the hierarchy of the claim's example. -/
def exSubTitleFirst : Decls :=
  [("title", ⟨2, 4⟩), ("year", ⟨3, 5⟩)]

end SchemaCompile

namespace ModelOps

/-- Native values held by model fields. -/
inductive Value where
  | vint : Int → Value
  | vstr : String → Value
deriving DecidableEq, Repr

/-- A data store (`_raw_data` / `_data` on an instance): a name → value
mapping, one binding per key. -/
abbrev Store := List (String × Value)

/-- Mapping lookup (`d.get(name, Undefined)` — `none` plays `Undefined`). -/
def alookup {β : Type} : List (String × β) → String → Option β
  | [], _ => none
  | (k, v) :: rest, n => if k = n then some v else alookup rest n

/-- Mapping assignment (`d[name] = value`): replace in place or append. -/
def aset {β : Type} : List (String × β) → String → β → List (String × β)
  | [], k, v => [(k, v)]
  | (k', v') :: rest, k, v =>
    if k' = k then (k', v) :: rest else (k', v') :: aset rest k v

/-- Mapping deletion (`del d[name]`): drop the binding for the key. -/
def aerase {β : Type} : List (String × β) → String → List (String × β)
  | [], _ => []
  | (k', v') :: rest, k =>
    if k' = k then rest else (k', v') :: aerase rest k

/-- `dict.update`: assign every binding of `new` into `base` in order. -/
def dUpdate (base new : Store) : Store :=
  new.foldl (fun acc kv => aset acc kv.1 kv.2) base

/-- One declared field type.  The concrete coercion and validation logic
of field kinds is out of scope of the sources (`schematics/types`), so a
field carries its capabilities as functions, per the spec's FieldUnit:
`tconvert` is `convert(raw) -> native | error`, `tvalidate` is
`validate(native) -> error?`, `pre_setattr` is the pre-set transformation
applied by `FieldDescriptor.__set__`, `default` the declared default. -/
structure FieldType where
  required : Bool
  default : Option Value
  pre_setattr : Value → Value
  tconvert : Value → Except String Value
  tvalidate : Value → Option String

/-- A compiled schema as consumed by the model operations: the ordered
fields, the custom field-scoped validators (registered from
`validate_<fieldName>` members), and the instance-level validators. -/
structure MSchema where
  fields : List (String × FieldType)
  validators : List (String × (Value → Option String))
  instanceValidators : List (Store → Option String)

/-- The two data stores of a model instance: `raw_data` is the pending
(`_raw_data`) store, `data` is the accepted (`_data`) store. -/
structure ModelState where
  raw_data : Store
  data : Store
deriving DecidableEq, Repr

/-- Errors raised immediately at the point of use (not aggregated):
`UndefinedValueError`, `UnknownFieldError`, and Python's `KeyError` from
deleting an absent key. -/
inductive AccessError where
  | undefinedValue (field : String)
  | unknownField (field : String)
  | keyError (field : String)
deriving DecidableEq, Repr

/-- `FieldDescriptor.__get__` on an instance:
`value = instance._data.get(self.name, Undefined)` then
`value = instance._raw_data.get(self.name, value)`; raise
`UndefinedValueError` if the result is still `Undefined`. -/
def descriptorGet (st : ModelState) (name : String) : Except AccessError Value :=
  let value := alookup st.data name
  let value := (alookup st.raw_data name).orElse (fun _ => value)
  match value with
  | none => .error (.undefinedValue name)
  | some v => .ok v

/-- `FieldDescriptor.__set__`: `value = field.pre_setattr(value)` then
`instance._raw_data[self.name] = value`. -/
def descriptorSet (field : FieldType) (st : ModelState) (name : String) (v : Value) :
    ModelState :=
  { st with raw_data := aset st.raw_data name (field.pre_setattr v) }

/-- `FieldDescriptor.__delete__`: `del instance._raw_data[self.name]` then
`del instance._data[self.name]`; each `del` raises `KeyError` when the key
is absent (on the second `KeyError` the pending deletion has already
happened in the source; the error outcome is what the claims consult). -/
def descriptorDelete (st : ModelState) (name : String) : Except AccessError ModelState :=
  match alookup st.raw_data name with
  | none => .error (.keyError name)
  | some _ =>
    let st1 : ModelState := { st with raw_data := aerase st.raw_data name }
    match alookup st1.data name with
    | none => .error (.keyError name)
    | some _ => .ok { st1 with data := aerase st1.data name }

/-- `Model.__getitem__`: `if name in self._schema.fields: return
getattr(self, name) else raise UnknownFieldError` — for a declared field
the attribute read is the descriptor get. -/
def getItem (schema : MSchema) (st : ModelState) (name : String) :
    Except AccessError Value :=
  match alookup schema.fields name with
  | some _ => descriptorGet st name
  | none => .error (.unknownField name)

/-- `Model.__setitem__`: `if name in self._schema.fields: return
setattr(self, name, value) else raise UnknownFieldError` — the attribute
write routes through the descriptor with the declared field. -/
def setItem (schema : MSchema) (st : ModelState) (name : String) (v : Value) :
    Except AccessError ModelState :=
  match alookup schema.fields name with
  | some f => .ok (descriptorSet f st name v)
  | none => .error (.unknownField name)

/-- `Model.__delitem__`: `if name in self._schema.fields: return
delattr(self, name) else raise UnknownFieldError`. -/
def delItem (schema : MSchema) (st : ModelState) (name : String) :
    Except AccessError ModelState :=
  match alookup schema.fields name with
  | some _ => descriptorDelete st name
  | none => .error (.unknownField name)

/-- Field-scoped and instance-scoped errors collected by a traversal. -/
inductive FieldErr where
  | missingRequired
  | conversionFailed (msg : String)
  | validationFailed (msg : String)
  | instanceFailed (msg : String)
  | rogueField
deriving DecidableEq, Repr

/-- An aggregated error set: field name (or the dedicated top-level key
`""` for instance-level failures) paired with the error. -/
abbrev Errors := List (String × FieldErr)

/-- Traversal context flags: `lenient` is the `partial` flag (drops
required-field enforcement for absent values), `strict` rejects input
keys the schema does not declare, `doConvert` runs coercion,
`shouldValidate` runs field and instance validation. -/
structure Ctx where
  lenient : Bool
  strict : Bool
  doConvert : Bool
  shouldValidate : Bool

/-- Modelled from the spec: step 1 of the shared walk (§4.2) —
resolve the input value with fallback precedence: value in the data
source under the field's own name → already accepted trusted value →
the field's declared default → absent (`none`).  (The per-call override
and alternate-key mapping of step 1 are not exercised by the claims and
are not modelled.)  The walk itself lives in the `transforms` and
`validate` modules, which are not among the sources. -/
def resolveValue (f : FieldType) (name : String) (ds acc : Store) : Option Value :=
  ((alookup ds name).orElse (fun _ => alookup acc name)).orElse (fun _ => f.default)

/-- Modelled from the spec: step 3 of the shared walk (§4.2) — coercion
runs only when the context requests conversion. -/
def convertStep (ctx : Ctx) (f : FieldType) (v0 : Value) : Except String Value :=
  if ctx.doConvert then f.tconvert v0 else .ok v0

/-- Modelled from the spec: step 4 of the shared walk (§4.2) — under
`shouldValidate`, the field's own validation runs first, then the custom
validator registered for the field name; either failure records a
field-scoped error and excludes the field from the result. -/
def validateStep (ctx : Ctx) (cvs : List (String × (Value → Option String)))
    (name : String) (f : FieldType) (v : Value) : Option Value × Errors :=
  if ctx.shouldValidate then
    match f.tvalidate v with
    | some m => (none, [(name, .validationFailed m)])
    | none =>
      match alookup cvs name with
      | some g =>
        match g v with
        | some m => (none, [(name, .validationFailed m)])
        | none => (some v, [])
      | none => (some v, [])
  else (some v, [])

/-- Modelled from the spec: steps 2–5 of the shared walk (§4.2) for one
field.  Absent value: skipped silently under `lenient`, a missing-required
error if the field is required, skipped otherwise.  Present value: coerced
(a failure records a field-scoped error and excludes the field), then
validated; only a fully successful field is written to the result
mapping. -/
def walkField (ctx : Ctx) (cvs : List (String × (Value → Option String)))
    (name : String) (f : FieldType) (ds acc : Store) : Option Value × Errors :=
  match resolveValue f name ds acc with
  | none =>
    if ctx.lenient then (none, [])
    else if f.required then (none, [(name, .missingRequired)])
    else (none, [])
  | some v0 =>
    match convertStep ctx f v0 with
    | .error m => (none, [(name, .conversionFailed m)])
    | .ok v => validateStep ctx cvs name f v

/-- Modelled from the spec: the field loop of the shared walk (§4.2) —
every field is attempted, errors accumulate without short-circuiting, and
successful fields are written to the result mapping in schema order. -/
def walkFields (ctx : Ctx) (cvs : List (String × (Value → Option String)))
    (ds acc : Store) : List (String × FieldType) → Store × Errors
  | [] => ([], [])
  | (n, f) :: rest =>
    let hd := walkField ctx cvs n f ds acc
    let tl := walkFields ctx cvs ds acc rest
    (match hd.1 with
     | some v => (n, v) :: tl.1
     | none => tl.1,
     hd.2 ++ tl.2)

/-- Modelled from the spec: under `strict`, input keys the schema does not
declare are rejected (§6, "strict causes unknown input keys to be
rejected"), each recorded as a field-scoped rogue-field error. -/
def rogueErrors (ctx : Ctx) (schema : MSchema) (ds : Store) : Errors :=
  if ctx.strict then
    (ds.filter (fun kv => (alookup schema.fields kv.1).isNone)).map
      (fun kv => (kv.1, FieldErr.rogueField))
  else []

/-- Modelled from the spec: the shared walk (§4.2) — process every field,
then (on the validation pass, when no field-scoped error occurred — the
spec's §9 default) run the instance-level validators against the
accumulated result mapping, folding failures under the dedicated top-level
key `""`, then the strict rogue-key check. -/
def walk (schema : MSchema) (ctx : Ctx) (ds acc : Store) : Store × Errors :=
  let r := walkFields ctx schema.validators ds acc schema.fields
  let instErrs :=
    if ctx.shouldValidate = true ∧ r.2 = [] then
      schema.instanceValidators.filterMap
        (fun iv => (iv r.1).map (fun msg => ("", FieldErr.instanceFailed msg)))
    else []
  (r.1, r.2 ++ instErrs ++ rogueErrors ctx schema ds)

/-- An uncaught Python exception escaping a model operation.
`outOfModel` marks artifacts of the bounded embedding (fuel exhaustion,
dangling schema reference) that do not occur on the modelled runs. -/
inductive PyExc where
  | nameError (name : String)
  | outOfModel
deriving DecidableEq, Repr

/-- `Model._convert` as staged (models.py:224–238): the parameter list
binds `**kwargs`, but the body's first statement after the optional
merge reads the name `kw` (`kw['trusted_data'] = self._data`), which is
bound nowhere — it is not a local, and no import supplies it — so every
call raises `NameError` on `kw` before the `validate`/`convert` walk can
run.  The only effect preceding the raise is
`self._raw_data.update(raw_data)` (line 233), taken when fresh raw data
distinct from the instance itself is passed (`isSelf = false`). -/
def modelConvertRun (st : ModelState) (rawData : Store) (isSelf : Bool) :
    Except PyExc Store × ModelState :=
  let st1 :=
    if rawData ≠ [] ∧ isSelf = false then
      { st with raw_data := dUpdate st.raw_data rawData }
    else st
  (.error (.nameError "kw"), st1)

/-- `Model.__init__` (models.py:165–180) with no trusted data and
`validate=False`: `_raw_data` and `_data` are initialised empty, then
`self._raw_data = self._convert(raw_data, partial=partial,
strict=strict, ...)` runs — and `_convert` raises `NameError` on the
unbound `kw` (see `modelConvertRun`), so every construction raises and
no instance is obtained.  The `partial`/`strict` keywords land in the
unused `**kwargs` and never reach a walk. -/
def modelInit (schema : MSchema) (rawData : Store) (lenient strict : Bool) :
    Except PyExc ModelState :=
  let st0 : ModelState := ⟨[], []⟩
  match modelConvertRun st0 rawData false with
  | (.error e, _) => .error e
  | (.ok m, st1) => .ok { st1 with raw_data := m }

/-- `Model.validate(partial=lenient)` (models.py:182–210): return
immediately when there is no pending input and `partial` is requested
(`if not self._raw_data and partial: return`, line 196); otherwise call
`self._convert(self, validate=True, ...)` — which raises `NameError` on
the unbound `kw` (see `modelConvertRun`; `raw_data is self`, so no store
is touched first).  The commit at lines 200–210 (`self._data.update(data)`
and the clearing of `_raw_data`), kept here as the success branches, is
therefore unreachable: a non-early-returning `validate()` always raises
and leaves the instance unchanged. -/
def modelValidate (schema : MSchema) (lenient : Bool) (st : ModelState) :
    Except PyExc Unit × ModelState :=
  if st.raw_data = [] ∧ lenient = true then (.ok (), st)
  else
    match modelConvertRun st [] true with
    | (.error e, st1) => (.error e, st1)
    | (.ok m, st1) =>
      if m = [] then (.ok (), st1)
      else (.ok (), ⟨[], dUpdate st1.data m⟩)

/-- A concrete field type: required, no default, identity pre-set
transformation, identity coercion, always-passing validation. -/
def fReq : FieldType :=
  { required := true
    default := none
    pre_setattr := fun v => v
    tconvert := fun v => .ok v
    tvalidate := fun _ => none }

/-- A concrete schema declaring the single required field `title`. -/
def cSchema : MSchema :=
  ⟨[("title", fReq)], [], []⟩

end ModelOps

namespace EqCmp

/-- A value in an instance's accepted store, as seen by equality: a
primitive or a reference to another model instance on the heap. -/
inductive HVal where
  | prim : Int → HVal
  | ref : Nat → HVal
deriving DecidableEq, Repr

/-- A model instance on the heap: `tag` identifies its concrete class
(the `type(self) is not type(other)` check), `data` is its accepted
store. -/
structure HObj where
  tag : Nat
  data : List (String × HVal)
deriving DecidableEq, Repr

/-- Instances addressed by identity (`id(self)` is the index). -/
abbrev Heap := List HObj

/-- The memo of visited identity pairs. -/
abbrev Memo := List (Nat × Nat)

/-- Value comparison inside `self._data == other._data`: primitives by
value, references through the recursive model comparison `rec` (which
threads the shared memo); mixed kinds are unequal. -/
def eqValF (rec : Nat → Nat → Memo → Bool × Memo) :
    HVal → HVal → Memo → Bool × Memo
  | .prim a, .prim b, memo => (a == b, memo)
  | .ref i, .ref j, memo => rec i j memo
  | _, _, memo => (false, memo)

/-- Python dict equality after the length check: iterate the left dict's
items, look each key up in the right dict and compare the values,
short-circuiting on the first mismatch, threading the memo. -/
def eqItemsF (rec : Nat → Nat → Memo → Bool × Memo) (r : List (String × HVal)) :
    List (String × HVal) → Memo → Bool × Memo
  | [], memo => (true, memo)
  | (k, v) :: rest, memo =>
    match ModelOps.alookup r k with
    | none => (false, memo)
    | some w =>
      let p := eqValF rec v w memo
      if p.1 then eqItemsF rec r rest p.2 else (false, p.2)

/-- `Model.__eq__` with its memo (`def __eq__(self, other, memo=set())`):
identity short-circuit, unequal on a class mismatch (the `NotImplemented`
branch, which resolves to unequal), immediate `True` when the pair
`(id(self), id(other))` is already memoised, otherwise memoise the pair,
compare the accepted stores as dicts (length check plus per-key value
comparison, recursing through references), and remove the pair again in
the `finally` block.  `get_ident()` is constant in the single-threaded
model and omitted from the key.  `fuel` bounds the recursion depth of the
embedding; exhaustion yields the out-of-model answer `false`. -/
def eqObj (heap : Heap) : Nat → Nat → Nat → Memo → Bool × Memo
  | 0, _, _, memo => (false, memo)
  | fuel + 1, i, j, memo =>
    if i = j then (true, memo)
    else
      match heap.get? i, heap.get? j with
      | some a, some b =>
        if a.tag ≠ b.tag then (false, memo)
        else if (i, j) ∈ memo then (true, memo)
        else
          let memo1 := (i, j) :: memo
          let p :=
            if a.data.length = b.data.length then
              eqItemsF (fun i' j' m => eqObj heap fuel i' j' m) b.data a.data memo1
            else (false, memo1)
          (p.1, p.2.erase (i, j))
      | _, _ => (false, memo)

/-- The claim's reading of accepted-data equality: every field present in
either store resolves in both and the two values compare equal (through
`eqValF`, i.e. recursively for references). -/
def itemsAgree (rec : Nat → Nat → Memo → Bool × Memo) (r l : List (String × HVal))
    (memo : Memo) : Prop :=
  ∀ k, (k ∈ l.map Prod.fst ∨ k ∈ r.map Prod.fst) →
    ∃ v w, ModelOps.alookup l k = some v ∧ ModelOps.alookup r k = some w ∧
      (eqValF rec v w memo).1 = true

/-- Two distinct instances of the same class referencing each other and
agreeing on their primitive field. -/
def heapCyc : Heap :=
  [⟨0, [("p", .prim 1), ("buddy", .ref 1)]⟩,
   ⟨0, [("p", .prim 1), ("buddy", .ref 0)]⟩]

/-- A cyclic pair disagreeing on a primitive field. -/
def heapCycNe : Heap :=
  [⟨0, [("p", .prim 1), ("buddy", .ref 1)]⟩,
   ⟨0, [("p", .prim 2), ("buddy", .ref 0)]⟩]

end EqCmp

namespace Mock

/-- A mocked value: a leaf from a plain field's mock capability or a
nested mocked instance. -/
inductive MockVal where
  | leaf : Int → MockVal
  | obj : List (String × MockVal) → MockVal

/-- One field as seen by mock generation: `modelClass` is the schema the
field's declared type references (`field.model_class`, present exactly on
model-typed fields), `leafVal` the value its plain mock capability
yields. -/
structure MockField where
  modelClass : Option Nat
  leafVal : Int
deriving DecidableEq, Repr

/-- The universe of schemas, indexed by identity. -/
abbrev MockEnv := List (List (String × MockField))

/-- Mapping assignment for arbitrary value types (`d[name] = value`). -/
def asetG {β : Type} : List (String × β) → String → β → List (String × β)
  | [], k, v => [(k, v)]
  | (k', v') :: rest, k, v =>
    if k' = k then (k', v) :: rest else (k', v') :: asetG rest k v

/-- `values.update(overrides)`: assign every override in order. -/
def updAll {β : Type} (base new : List (String × β)) : List (String × β) :=
  new.foldl (fun acc kv => asetG acc kv.1 kv.2) base

/-- The field loop of `Model.get_mock_object` (models.py:288–297): skip
overridden fields, skip a field whose `model_class` is already in the
memo, mock the rest — a model-typed field recurses through `rec`
(threading the shared memo, which only ever grows), a plain field yields
its leaf.  An exception from the recursion propagates (`NameError` is not
a `MockCreationError`, so the `except` clause at line 296 does not catch
it) and aborts the loop. -/
def mockLoopRun
    (rec : List Nat → Nat → Except ModelOps.PyExc (List (String × MockVal)) × List Nat)
    (overrides : List (String × MockVal)) :
    List (String × MockField) → List Nat →
      Except ModelOps.PyExc (List (String × MockVal)) × List Nat
  | [], memo => (.ok [], memo)
  | (n, f) :: rest, memo =>
    if (ModelOps.alookup overrides n).isSome then mockLoopRun rec overrides rest memo
    else
      match f.modelClass with
      | some c =>
        if c ∈ memo then mockLoopRun rec overrides rest memo
        else
          let p := rec memo c
          match p.1 with
          | .error e => (.error e, p.2)
          | .ok sub =>
            let q := mockLoopRun rec overrides rest p.2
            (q.1.map (fun vs => (n, MockVal.obj sub) :: vs), q.2)
      | none =>
        let q := mockLoopRun rec overrides rest memo
        (q.1.map (fun vs => (n, MockVal.leaf f.leafVal) :: vs), q.2)

/-- `Model.get_mock_object` (models.py:278–299): ensure the context has a
`memo` set, add the class itself (`context.memo.add(cls)` — the set is
shared down the recursion and accumulates, it is not copied per branch),
run the field loop, apply the overrides (`values.update(overrides)`), and
finally `return cls(values)` — constructing the model runs
`Model.__init__`, whose `_convert` call raises `NameError` on the unbound
`kw` (models.py:234), so a mock call that completes its field loop raises
instead of returning the instance, and a nested mock failure propagates.
The recursion of a model-typed field into `get_mock_object` of the
referenced class with the same context is modelled from the spec (§4.5),
the concrete field types not being among the sources.  `fuel` bounds the
recursion depth of the embedding, `outOfModel` reporting its
exhaustion. -/
def getMockObject (env : MockEnv) :
    Nat → List Nat → Nat → List (String × MockVal) →
      Except ModelOps.PyExc (List (String × MockVal)) × List Nat
  | 0, memo, _, _ => (.error .outOfModel, memo)
  | fuel + 1, memo, cid, overrides =>
    let memo1 := if cid ∈ memo then memo else cid :: memo
    match env.get? cid with
    | none => (.error .outOfModel, memo1)
    | some fields =>
      let p := mockLoopRun (fun m c => getMockObject env fuel m c []) overrides
        fields memo1
      match p.1 with
      | .error e => (.error e, p.2)
      | .ok vs =>
        let _values := updAll vs overrides
        (.error (ModelOps.PyExc.nameError "kw"), p.2)

/-- Schema `0` references itself through `child` and has a plain field
`x`. -/
def envSelf : MockEnv :=
  [[("child", ⟨some 0, 0⟩), ("x", ⟨none, 7⟩)]]

/-- Schemas `0` and `1` reference each other; schema `1` also has a plain
field `y`. -/
def envMutual : MockEnv :=
  [[("b", ⟨some 1, 0⟩)], [("a", ⟨some 0, 0⟩), ("y", ⟨none, 5⟩)]]

end Mock

namespace ModelOps

theorem alookup_aset {β : Type} (s : List (String × β)) (k : String) (v : β)
    (k' : String) :
    alookup (aset s k v) k' = if k = k' then some v else alookup s k' := by
  induction s with
  | nil => simp [aset, alookup]
  | cons kv rest ih =>
    obtain ⟨a, b⟩ := kv
    simp only [aset]
    by_cases hak : a = k
    · subst hak
      by_cases h2 : a = k' <;> simp [alookup, h2]
    · by_cases h2 : a = k'
      · subst h2
        have hka : ¬ a = k := hak
        have hk : ¬ k = a := fun h => hak h.symm
        simp [alookup, hak, hk]
      · simp [alookup, hak, h2, ih]

theorem alookup_none_key {β : Type} (l : List (String × β)) (n : String)
    (h : alookup l n = none) : ∀ kv ∈ l, kv.1 ≠ n := by
  induction l with
  | nil => simp
  | cons kv rest ih =>
    obtain ⟨a, b⟩ := kv
    simp only [alookup] at h
    by_cases hak : a = n
    · simp [hak] at h
    · intro kv hm
      rcases List.mem_cons.mp hm with rfl | hm'
      · exact hak
      · exact ih (by simpa [hak] using h) kv hm'

theorem alookup_mem {β : Type} (l : List (String × β)) (k : String) (v : β)
    (h : alookup l k = some v) : (k, v) ∈ l := by
  induction l with
  | nil => simp [alookup] at h
  | cons kv rest ih =>
    obtain ⟨a, b⟩ := kv
    simp only [alookup] at h
    by_cases hak : a = k
    · subst hak
      simp at h
      subst h
      exact List.mem_cons_self _ _
    · exact List.mem_cons_of_mem _ (ih (by simpa [hak] using h))

theorem mem_keys_alookup {β : Type} (l : List (String × β)) (k : String)
    (h : k ∈ l.map Prod.fst) : ∃ v, alookup l k = some v := by
  induction l with
  | nil => simp at h
  | cons kv rest ih =>
    obtain ⟨a, b⟩ := kv
    by_cases hak : a = k
    · exact ⟨b, by simp [alookup, hak]⟩
    · have : k ∈ rest.map Prod.fst := by
        simp only [List.map_cons, List.mem_cons] at h
        rcases h with h1 | h1
        · exact absurd h1.symm hak
        · exact h1
      obtain ⟨v, hv⟩ := ih this
      exact ⟨v, by simp [alookup, hak, hv]⟩

theorem alookup_of_mem_nodup {β : Type} (l : List (String × β)) (k : String) (v : β)
    (hnd : (l.map Prod.fst).Nodup) (h : (k, v) ∈ l) : alookup l k = some v := by
  induction l with
  | nil => simp at h
  | cons kv rest ih =>
    obtain ⟨a, b⟩ := kv
    simp only [List.map_cons, List.nodup_cons] at hnd
    rcases List.mem_cons.mp h with heq | hm
    · cases heq
      simp [alookup]
    · have hak : a ≠ k :=
        fun hk => hnd.1 (List.mem_map.mpr ⟨(k, v), hm, hk.symm⟩)
      simp [alookup, hak, ih hnd.2 hm]

end ModelOps

namespace SchemaCompile

/-- Claim C1, counterexample: with a base declaring `[id, title]` and a
subclass declaring `[year, title (override)]`, the compiled order is
`[id, year, title]` — the overridden `title` does *not* retain the order
slot it had in the ancestor (retaining it would give `[id, title, year]`),
because the final sort key is the position hint of the new (overriding)
field instance. -/
theorem c1_counterexample :
    (compileFields [exBase] exSubYearFirst).map Prod.fst = ["id", "year", "title"] ∧
    ["id", "year", "title"] ≠ ["id", "title", "year"] := by
  constructor
  · rfl
  · decide

/-- Claim C1, amended: the compiled field iteration order is ascending in
the position hint of the effective (possibly overriding) field instance —
ancestors' declarations first, then the declaring class's declarations in
their own order, with a redeclared field using the new definition but
sorting at the position of its redeclaration rather than at the
ancestor's slot.  The compiled fields are exactly a permutation of the
override-merge of the ancestors followed by the declaring class's own
declarations.  The claim's example holds: a base declaring `[id, title]`
and a subclass declaring `[title (override), year]` compiles to
`[id, title, year]` with the override carrying the new definition. -/
theorem c1_amended_order :
    (∀ parents own, List.Sorted hintLe (compileFields parents own)) ∧
    (∀ parents own, List.Perm (compileFields parents own) (mergeFields parents own)) ∧
    (compileFields [exBase] exSubTitleFirst).map Prod.fst = ["id", "title", "year"] ∧
    compileFields [exBase] exSubTitleFirst =
      [("id", ⟨0, 0⟩), ("title", ⟨2, 4⟩), ("year", ⟨3, 5⟩)] := by
  refine ⟨?_, ?_, ?_, ?_⟩
  · intro parents own
    exact List.sorted_insertionSort hintLe (mergeFields parents own)
  · intro parents own
    exact List.perm_insertionSort hintLe (mergeFields parents own)
  · rfl
  · rfl

end SchemaCompile

namespace ModelOps

/-- Claim C7: an attribute read of a declared field whose value is in
neither the accepted store nor the pending store raises
`UndefinedValueError` at read time rather than returning a native
absence. -/
theorem c7_undefined_read (st : ModelState) (name : String)
    (h1 : alookup st.raw_data name = none) (h2 : alookup st.data name = none) :
    descriptorGet st name = .error (.undefinedValue name) := by
  simp [descriptorGet, h1, h2, Option.orElse]

theorem c7_witness :
    descriptorGet ⟨[], []⟩ "title" = .error (.undefinedValue "title") :=
  c7_undefined_read ⟨[], []⟩ "title" rfl rfl

/-- Claim C9: on an attribute read the pending store takes precedence —
a field present in both stores reads its pending value, a field present
only in the accepted store reads the accepted value. -/
theorem c9_pending_precedence (st : ModelState) (name : String) :
    (∀ v, alookup st.raw_data name = some v → descriptorGet st name = .ok v) ∧
    (alookup st.raw_data name = none →
      ∀ w, alookup st.data name = some w → descriptorGet st name = .ok w) := by
  constructor
  · intro v h
    simp [descriptorGet, h, Option.orElse]
  · intro h w h2
    simp [descriptorGet, h, h2, Option.orElse]

theorem c9_witness :
    descriptorGet ⟨[("a", .vint 1)], [("a", .vint 2)]⟩ "a" = .ok (.vint 1) ∧
    descriptorGet ⟨[], [("a", .vint 2)]⟩ "a" = .ok (.vint 2) :=
  ⟨(c9_pending_precedence ⟨[("a", .vint 1)], [("a", .vint 2)]⟩ "a").1 (.vint 1) rfl,
   (c9_pending_precedence ⟨[], [("a", .vint 2)]⟩ "a").2 rfl (.vint 2) rfl⟩

/-- Claim C10: setting a declared field (by attribute or item assignment)
writes the pre-set-transformed value into the pending store only — the
accepted store and every other pending binding are unchanged. -/
theorem c10_set_frame (schema : MSchema) (f : FieldType) (st : ModelState)
    (name : String) (v : Value) :
    (alookup schema.fields name = some f →
      setItem schema st name v = .ok (descriptorSet f st name v)) ∧
    (descriptorSet f st name v).data = st.data ∧
    alookup (descriptorSet f st name v).raw_data name = some (f.pre_setattr v) ∧
    (∀ k, k ≠ name →
      alookup (descriptorSet f st name v).raw_data k = alookup st.raw_data k) := by
  refine ⟨?_, rfl, ?_, ?_⟩
  · intro h
    simp [setItem, h]
  · show alookup (aset st.raw_data name (f.pre_setattr v)) name = _
    rw [alookup_aset]
    simp
  · intro k hk
    show alookup (aset st.raw_data name (f.pre_setattr v)) k = _
    rw [alookup_aset, if_neg (fun h => hk h.symm)]

theorem c10_witness :
    setItem cSchema ⟨[], []⟩ "title" (.vint 5) =
      .ok (descriptorSet fReq ⟨[], []⟩ "title" (.vint 5)) ∧
    (descriptorSet fReq ⟨[], []⟩ "title" (.vint 5)).data = [] ∧
    alookup (descriptorSet fReq ⟨[], []⟩ "title" (.vint 5)).raw_data "title" =
      some (fReq.pre_setattr (.vint 5)) ∧
    alookup (descriptorSet fReq ⟨[], []⟩ "title" (.vint 5)).raw_data "x" =
      alookup ([] : Store) "x" := by
  have h := c10_set_frame cSchema fReq ⟨[], []⟩ "title" (.vint 5)
  exact ⟨h.1 rfl, h.2.1, h.2.2.1, h.2.2.2 "x" (by decide)⟩

/-- Claim C6: indexed access with a key the schema does not declare
raises `UnknownFieldError` immediately (it is an `AccessError`, never
entered into an aggregated error set), for get, set and delete alike;
indexed access with a declared field name behaves exactly like the
corresponding attribute access through the field descriptor. -/
theorem c6_indexed_access (schema : MSchema) (st : ModelState) (name : String)
    (v : Value) :
    (alookup schema.fields name = none →
      getItem schema st name = .error (.unknownField name) ∧
      setItem schema st name v = .error (.unknownField name) ∧
      delItem schema st name = .error (.unknownField name)) ∧
    (∀ f, alookup schema.fields name = some f →
      getItem schema st name = descriptorGet st name ∧
      setItem schema st name v = .ok (descriptorSet f st name v) ∧
      delItem schema st name = descriptorDelete st name) := by
  constructor
  · intro h
    exact ⟨by simp [getItem, h], by simp [setItem, h], by simp [delItem, h]⟩
  · intro f h
    exact ⟨by simp [getItem, h], by simp [setItem, h], by simp [delItem, h]⟩

theorem c6_witness :
    (getItem cSchema ⟨[], []⟩ "nope" = .error (.unknownField "nope") ∧
     setItem cSchema ⟨[], []⟩ "nope" (.vint 1) = .error (.unknownField "nope") ∧
     delItem cSchema ⟨[], []⟩ "nope" = .error (.unknownField "nope")) ∧
    (getItem cSchema ⟨[], []⟩ "title" = descriptorGet ⟨[], []⟩ "title" ∧
     setItem cSchema ⟨[], []⟩ "title" (.vint 1) =
       .ok (descriptorSet fReq ⟨[], []⟩ "title" (.vint 1)) ∧
     delItem cSchema ⟨[], []⟩ "title" = descriptorDelete ⟨[], []⟩ "title") := by
  refine ⟨(c6_indexed_access cSchema ⟨[], []⟩ "nope" (.vint 1)).1 rfl, ?_⟩
  exact (c6_indexed_access cSchema ⟨[], []⟩ "title" (.vint 1)).2 fReq rfl

/-- Claim C8: with an empty pending store, `validate(partial=True)`
returns without error and without touching either store. -/
theorem c8_noop_validate (schema : MSchema) (st : ModelState)
    (h : st.raw_data = []) :
    modelValidate schema true st = (.ok (), st) := by
  simp [modelValidate, h]

theorem c8_witness :
    modelValidate cSchema true ⟨[], [("title", .vint 3)]⟩ =
      (.ok (), ⟨[], [("title", .vint 3)]⟩) :=
  c8_noop_validate cSchema ⟨[], [("title", .vint 3)]⟩ rfl

theorem validateStep_shape (ctx : Ctx) (cvs : List (String × (Value → Option String)))
    (name : String) (f : FieldType) (v : Value) :
    (validateStep ctx cvs name f v).2 = [] ∨
      ∃ e, (validateStep ctx cvs name f v).2 = [(name, e)] := by
  unfold validateStep
  by_cases hsv : ctx.shouldValidate = true
  · rw [if_pos hsv]
    cases h2 : f.tvalidate v with
    | some m => exact Or.inr ⟨.validationFailed m, rfl⟩
    | none =>
      dsimp only
      cases h3 : alookup cvs name with
      | none => exact Or.inl rfl
      | some g =>
        dsimp only
        cases h4 : g v with
        | none => exact Or.inl rfl
        | some m => exact Or.inr ⟨.validationFailed m, rfl⟩
  · rw [if_neg hsv]
    exact Or.inl rfl

theorem walkField_err_shape (ctx : Ctx) (cvs : List (String × (Value → Option String)))
    (n : String) (f : FieldType) (ds acc : Store) :
    (walkField ctx cvs n f ds acc).2 = [] ∨
      ∃ e, (walkField ctx cvs n f ds acc).2 = [(n, e)] := by
  unfold walkField
  cases hres : resolveValue f n ds acc with
  | none =>
    dsimp only
    by_cases hl : ctx.lenient = true
    · rw [if_pos hl]
      exact Or.inl rfl
    · rw [if_neg hl]
      by_cases hr : f.required = true
      · rw [if_pos hr]
        exact Or.inr ⟨.missingRequired, rfl⟩
      · rw [if_neg hr]
        exact Or.inl rfl
  | some v0 =>
    dsimp only
    cases hcv : convertStep ctx f v0 with
    | error m => exact Or.inr ⟨.conversionFailed m, rfl⟩
    | ok v => exact validateStep_shape ctx cvs n f v

theorem walkField_err_key (ctx : Ctx) (cvs : List (String × (Value → Option String)))
    (n : String) (f : FieldType) (ds acc : Store) (k : String) (e : FieldErr)
    (h : (k, e) ∈ (walkField ctx cvs n f ds acc).2) : k = n := by
  rcases walkField_err_shape ctx cvs n f ds acc with hs | ⟨e', hs⟩
  · rw [hs] at h
    exact absurd h (List.not_mem_nil _)
  · rw [hs] at h
    rcases List.mem_cons.mp h with heq | h2
    · exact congrArg Prod.fst heq
    · exact absurd h2 (List.not_mem_nil _)

theorem walkField_skip_absent (ctx : Ctx) (cvs : List (String × (Value → Option String)))
    (n : String) (f : FieldType) (ds acc : Store)
    (hres : resolveValue f n ds acc = none) (hl : ctx.lenient = true) :
    walkField ctx cvs n f ds acc = (none, []) := by
  simp [walkField, hres, hl]

theorem walkField_missing (ctx : Ctx) (cvs : List (String × (Value → Option String)))
    (n : String) (f : FieldType) (ds acc : Store)
    (hres : resolveValue f n ds acc = none) (hl : ctx.lenient = false)
    (hr : f.required = true) :
    walkField ctx cvs n f ds acc = (none, [(n, .missingRequired)]) := by
  simp [walkField, hres, hl, hr]

theorem walkFields_missing_mem (ctx : Ctx) (cvs : List (String × (Value → Option String)))
    (ds acc : Store) (hl : ctx.lenient = false) :
    ∀ (fields : List (String × FieldType)) (n : String) (f : FieldType),
      (n, f) ∈ fields → f.required = true → resolveValue f n ds acc = none →
      (n, FieldErr.missingRequired) ∈ (walkFields ctx cvs ds acc fields).2 := by
  intro fields
  induction fields with
  | nil =>
    intro n f h
    exact absurd h (List.not_mem_nil _)
  | cons hd rest ih =>
    obtain ⟨n0, f0⟩ := hd
    intro n f hmem hreq hres
    simp only [walkFields]
    rcases List.mem_cons.mp hmem with heq | htail
    · cases heq
      rw [walkField_missing ctx cvs n0 f0 ds acc hres hl hreq]
      exact List.mem_append_left _ (List.mem_singleton.mpr rfl)
    · exact List.mem_append_right _ (ih n f htail hreq hres)

theorem walkFields_err_mem (ctx : Ctx) (cvs : List (String × (Value → Option String)))
    (ds acc : Store) :
    ∀ (fields : List (String × FieldType)) (k : String) (e : FieldErr),
      (k, e) ∈ (walkFields ctx cvs ds acc fields).2 →
      ∃ f', (k, f') ∈ fields ∧ (k, e) ∈ (walkField ctx cvs k f' ds acc).2 := by
  intro fields
  induction fields with
  | nil =>
    intro k e h
    simp [walkFields] at h
  | cons hd rest ih =>
    obtain ⟨n0, f0⟩ := hd
    intro k e h
    simp only [walkFields] at h
    rcases List.mem_append.mp h with h1 | h1
    · have hk := walkField_err_key ctx cvs n0 f0 ds acc k e h1
      subst hk
      exact ⟨f0, List.mem_cons_self _ _, h1⟩
    · obtain ⟨f', hf, hw⟩ := ih k e h1
      exact ⟨f', List.mem_cons_of_mem _ hf, hw⟩

theorem walk_def (schema : MSchema) (ctx : Ctx) (ds acc : Store) :
    walk schema ctx ds acc =
      ((walkFields ctx schema.validators ds acc schema.fields).1,
       (walkFields ctx schema.validators ds acc schema.fields).2 ++
         (if ctx.shouldValidate = true ∧
             (walkFields ctx schema.validators ds acc schema.fields).2 = [] then
            schema.instanceValidators.filterMap
              (fun iv =>
                (iv (walkFields ctx schema.validators ds acc schema.fields).1).map
                  (fun msg => ("", FieldErr.instanceFailed msg)))
          else []) ++ rogueErrors ctx schema ds) := rfl

/-- Claim C2 (code bug): construction does raise, always — for every
schema, input and flag combination, `Model.__init__` propagates the
`NameError` on the unbound `kw` raised inside `_convert`
(models.py:224 binds `**kwargs`, line 234 reads `kw`), so
"constructing with partial=true ... does not raise" is false of the
staged source, and there is no instance on which the claimed later
`validate(partial=False)` could report the missing-required error; in
particular the claim's own scenario (a required `title` with no default,
empty input, `partial=True`) raises at construction. -/
theorem c2_construct_code_bug :
    (∀ (schema : MSchema) (rawData : Store) (lenient strict : Bool),
      modelInit schema rawData lenient strict = .error (.nameError "kw")) ∧
    modelInit cSchema [] true true = .error (.nameError "kw") := by
  refine ⟨?_, rfl⟩
  intro schema rawData lenient strict
  rfl

/-- Claim C3 (code bug): past the line-196 early return,
`Model.validate` never raises the aggregated error set and never
commits — every non-early-returning call raises the `NameError` on the
unbound `kw` inside `_convert` before any walk, error aggregation,
`self._data.update(data)` or clearing of `_raw_data` can happen, and the
instance is left unchanged; so each `validate()` call either no-ops (the
early return) or raises `NameError` with both stores untouched. -/
theorem c3_validate_code_bug :
    (∀ (schema : MSchema) (st : ModelState),
      modelValidate schema false st = (.error (.nameError "kw"), st)) ∧
    (∀ (schema : MSchema) (lenient : Bool) (st : ModelState),
      modelValidate schema lenient st = (.ok (), st) ∨
      modelValidate schema lenient st = (.error (.nameError "kw"), st)) := by
  constructor
  · intro schema st
    simp [modelValidate, modelConvertRun]
  · intro schema lenient st
    by_cases h : st.raw_data = [] ∧ lenient = true
    · left
      simp [modelValidate, h]
    · right
      simp [modelValidate, h, modelConvertRun]

end ModelOps


namespace EqCmp

theorem eqValF_memo (rec : Nat → Nat → Memo → Bool × Memo)
    (hrec : ∀ i j m, (rec i j m).2 = m) (v w : HVal) (m : Memo) :
    (eqValF rec v w m).2 = m := by
  cases v <;> cases w <;> simp [eqValF, hrec]

theorem eqItemsF_memo (rec : Nat → Nat → Memo → Bool × Memo)
    (hrec : ∀ i j m, (rec i j m).2 = m) (r : List (String × HVal)) :
    ∀ (l : List (String × HVal)) (memo : Memo), (eqItemsF rec r l memo).2 = memo := by
  intro l
  induction l with
  | nil =>
    intro memo
    rfl
  | cons kv rest ih =>
    intro memo
    obtain ⟨k, v⟩ := kv
    simp only [eqItemsF]
    cases h : ModelOps.alookup r k with
    | none => rfl
    | some w =>
      dsimp only
      have hv := eqValF_memo rec hrec v w memo
      by_cases hb : (eqValF rec v w memo).1 = true
      · rw [if_pos hb, hv]
        exact ih memo
      · rw [if_neg hb]
        exact hv

theorem eqObj_memo (heap : Heap) :
    ∀ (fuel i j : Nat) (memo : Memo), (eqObj heap fuel i j memo).2 = memo := by
  intro fuel
  induction fuel with
  | zero =>
    intro i j memo
    rfl
  | succ fuel ih =>
    intro i j memo
    simp only [eqObj]
    by_cases hij : i = j
    · rw [if_pos hij]
    · rw [if_neg hij]
      cases h1 : heap.get? i with
      | none =>
        cases h2 : heap.get? j with
        | none => rfl
        | some b => rfl
      | some a =>
        cases h2 : heap.get? j with
        | none => rfl
        | some b =>
          dsimp only
          by_cases htag : a.tag ≠ b.tag
          · rw [if_pos htag]
          · rw [if_neg htag]
            by_cases hmem : (i, j) ∈ memo
            · rw [if_pos hmem]
            · rw [if_neg hmem]
              dsimp only
              have hp : (if a.data.length = b.data.length then
                  eqItemsF (fun i' j' m => eqObj heap fuel i' j' m) b.data a.data
                    ((i, j) :: memo)
                else (false, (i, j) :: memo)).2 = (i, j) :: memo := by
                split_ifs with hl
                · exact eqItemsF_memo _ (fun i' j' m => ih i' j' m) _ _ _
                · rfl
              rw [hp]
              exact List.erase_cons_head _ _

theorem eqObj_step (heap : Heap) (fuel i j : Nat) (memo : Memo) (a b : HObj)
    (hij : i ≠ j) (h1 : heap.get? i = some a) (h2 : heap.get? j = some b)
    (hmem : (i, j) ∉ memo) :
    eqObj heap (fuel + 1) i j memo =
      ((if a.tag = b.tag then
          (if a.data.length = b.data.length then
            (eqItemsF (fun i' j' m => eqObj heap fuel i' j' m) b.data a.data
              ((i, j) :: memo)).1
           else false)
        else false), memo) := by
  simp only [eqObj]
  rw [if_neg hij, h1, h2]
  dsimp only
  by_cases htag : a.tag = b.tag
  · rw [if_neg (fun hne => hne htag), if_neg hmem, if_pos htag]
    by_cases hlen : a.data.length = b.data.length
    · rw [if_pos hlen, if_pos hlen]
      have hm2 : (eqItemsF (fun i' j' m => eqObj heap fuel i' j' m) b.data a.data
          ((i, j) :: memo)).2 = (i, j) :: memo :=
        eqItemsF_memo _ (fun i' j' m => eqObj_memo heap fuel i' j' m) _ _ _
      rw [hm2, List.erase_cons_head]
    · rw [if_neg hlen, if_neg hlen]
      dsimp only
      rw [List.erase_cons_head]
  · rw [if_pos htag, if_neg htag]

theorem eqItemsF_true_iff (rec : Nat → Nat → Memo → Bool × Memo)
    (hrec : ∀ i j m, (rec i j m).2 = m) (r : List (String × HVal)) :
    ∀ (l : List (String × HVal)) (memo : Memo),
      (eqItemsF rec r l memo).1 = true ↔
        ∀ p ∈ l, ∃ w, ModelOps.alookup r p.1 = some w ∧
          (eqValF rec p.2 w memo).1 = true := by
  intro l
  induction l with
  | nil =>
    intro memo
    simp [eqItemsF]
  | cons kv rest ih =>
    intro memo
    obtain ⟨k, v⟩ := kv
    simp only [eqItemsF]
    cases h : ModelOps.alookup r k with
    | none =>
      dsimp only
      constructor
      · intro hfalse
        exact absurd hfalse (by simp)
      · intro hall
        obtain ⟨w, hw, _⟩ := hall (k, v) (List.mem_cons_self _ _)
        rw [h] at hw
        exact absurd hw (by simp)
    | some w =>
      dsimp only
      have hv := eqValF_memo rec hrec v w memo
      by_cases hb : (eqValF rec v w memo).1 = true
      · rw [if_pos hb, hv, ih memo]
        constructor
        · intro hall p hp
          rcases List.mem_cons.mp hp with rfl | hp'
          · exact ⟨w, h, hb⟩
          · exact hall p hp'
        · intro hall p hp
          exact hall p (List.mem_cons_of_mem _ hp)
      · rw [if_neg hb]
        dsimp only
        constructor
        · intro hfalse
          exact absurd hfalse (by simp)
        · intro hall
          obtain ⟨w', hw', hb'⟩ := hall (k, v) (List.mem_cons_self _ _)
          rw [h] at hw'
          injection hw' with hww
          rw [← hww] at hb'
          exact absurd hb' hb

theorem eqData_spec (rec : Nat → Nat → Memo → Bool × Memo)
    (hrec : ∀ i j m, (rec i j m).2 = m)
    (l r : List (String × HVal)) (memo : Memo)
    (hndl : (l.map Prod.fst).Nodup) (hndr : (r.map Prod.fst).Nodup) :
    (l.length = r.length ∧ (eqItemsF rec r l memo).1 = true) ↔
      itemsAgree rec r l memo := by
  constructor
  · rintro ⟨hlen, htrue⟩
    have hall := (eqItemsF_true_iff rec hrec r l memo).mp htrue
    have hsub : ∀ k ∈ l.map Prod.fst, k ∈ r.map Prod.fst := by
      intro k hk
      obtain ⟨v, hv⟩ := ModelOps.mem_keys_alookup l k hk
      obtain ⟨w, hw, _⟩ := hall (k, v) (ModelOps.alookup_mem l k v hv)
      exact List.mem_map.mpr ⟨(k, w), ModelOps.alookup_mem r k w hw, rfl⟩
    intro k hk
    have hkl : k ∈ l.map Prod.fst := by
      rcases hk with hk | hk
      · exact hk
      · have hcard : (l.map Prod.fst).toFinset = (r.map Prod.fst).toFinset := by
          apply Finset.eq_of_subset_of_card_le
          · intro x hx
            exact List.mem_toFinset.mpr (hsub x (List.mem_toFinset.mp hx))
          · rw [List.toFinset_card_of_nodup hndr, List.toFinset_card_of_nodup hndl]
            simp [hlen]
        have hmem : k ∈ (l.map Prod.fst).toFinset := by
          rw [hcard]
          exact List.mem_toFinset.mpr hk
        exact List.mem_toFinset.mp hmem
    obtain ⟨v, hv⟩ := ModelOps.mem_keys_alookup l k hkl
    obtain ⟨w, hw, hb⟩ := hall (k, v) (ModelOps.alookup_mem l k v hv)
    exact ⟨v, w, hv, hw, hb⟩
  · intro hag
    have hsub1 : ∀ k ∈ l.map Prod.fst, k ∈ r.map Prod.fst := by
      intro k hk
      obtain ⟨v, w, hv, hw, _⟩ := hag k (Or.inl hk)
      exact List.mem_map.mpr ⟨(k, w), ModelOps.alookup_mem r k w hw, rfl⟩
    have hsub2 : ∀ k ∈ r.map Prod.fst, k ∈ l.map Prod.fst := by
      intro k hk
      obtain ⟨v, w, hv, hw, _⟩ := hag k (Or.inr hk)
      exact List.mem_map.mpr ⟨(k, v), ModelOps.alookup_mem l k v hv, rfl⟩
    have hlen : l.length = r.length := by
      have h1 : (l.map Prod.fst).toFinset = (r.map Prod.fst).toFinset := by
        apply Finset.Subset.antisymm
        · intro x hx
          exact List.mem_toFinset.mpr (hsub1 x (List.mem_toFinset.mp hx))
        · intro x hx
          exact List.mem_toFinset.mpr (hsub2 x (List.mem_toFinset.mp hx))
      have h2 := congrArg Finset.card h1
      rw [List.toFinset_card_of_nodup hndl, List.toFinset_card_of_nodup hndr] at h2
      simpa using h2
    refine ⟨hlen, (eqItemsF_true_iff rec hrec r l memo).mpr ?_⟩
    intro p hp
    obtain ⟨v, w, hv, hw, hb⟩ := hag p.1 (Or.inl (List.mem_map.mpr ⟨p, hp, rfl⟩))
    have hvp : ModelOps.alookup l p.1 = some p.2 :=
      ModelOps.alookup_of_mem_nodup l p.1 p.2 hndl hp
    rw [hv] at hvp
    injection hvp with hvp'
    rw [hvp'] at hb
    exact ⟨w, hw, hb⟩

/-- Claim C4: two instances are equal exactly when they have the same
class (schema) and their accepted stores agree pairwise on every field
present in either (the step equation, with `itemsAgree` the pairwise
reading); a pair already in the memo compares equal immediately, which
breaks reference cycles — the concrete two-instance cycle evaluates in
finitely many steps, to equal when the primitive fields agree and to
unequal when they differ; and the memo is restored by the comparison, so
nothing persists from one top-level call to the next. -/
theorem c4_cycle_safe_equality :
    (∀ (heap : Heap) (fuel i j : Nat) (memo : Memo) (a b : HObj),
      heap.get? i = some a → heap.get? j = some b → a.tag = b.tag →
      (i, j) ∈ memo → eqObj heap (fuel + 1) i j memo = (true, memo)) ∧
    (∀ (heap : Heap) (fuel i j : Nat) (memo : Memo),
      (eqObj heap fuel i j memo).2 = memo) ∧
    (∀ (heap : Heap) (fuel i j : Nat) (memo : Memo) (a b : HObj),
      i ≠ j → heap.get? i = some a → heap.get? j = some b → (i, j) ∉ memo →
      (a.data.map Prod.fst).Nodup → (b.data.map Prod.fst).Nodup →
      ((eqObj heap (fuel + 1) i j memo).1 = true ↔
        (a.tag = b.tag ∧
          itemsAgree (fun i' j' m => eqObj heap fuel i' j' m) b.data a.data
            ((i, j) :: memo)))) ∧
    (eqObj heapCyc 3 0 1 [] = (true, []) ∧
     eqObj heapCycNe 3 0 1 [] = (false, [])) := by
  refine ⟨?_, eqObj_memo, ?_, by decide, by decide⟩
  · intro heap fuel i j memo a b h1 h2 htag hmem
    simp only [eqObj]
    by_cases hij : i = j
    · rw [if_pos hij]
    · rw [if_neg hij, h1, h2]
      dsimp only
      rw [if_neg (fun hne => hne htag), if_pos hmem]
  · intro heap fuel i j memo a b hij h1 h2 hmem hnda hndb
    rw [eqObj_step heap fuel i j memo a b hij h1 h2 hmem]
    by_cases htag : a.tag = b.tag
    · dsimp only
      rw [if_pos htag]
      constructor
      · intro ht
        refine ⟨htag, ?_⟩
        by_cases hlen : a.data.length = b.data.length
        · rw [if_pos hlen] at ht
          exact (eqData_spec _ (fun i' j' m => eqObj_memo heap fuel i' j' m)
            a.data b.data ((i, j) :: memo) hnda hndb).mp ⟨hlen, ht⟩
        · rw [if_neg hlen] at ht
          exact absurd ht (by simp)
      · rintro ⟨-, hag⟩
        obtain ⟨hlen, ht⟩ := (eqData_spec _ (fun i' j' m => eqObj_memo heap fuel i' j' m)
          a.data b.data ((i, j) :: memo) hnda hndb).mpr hag
        rw [if_pos hlen]
        exact ht
    · dsimp only
      rw [if_neg htag]
      simp only [Bool.false_eq_true, false_iff]
      exact fun hc => htag hc.1

theorem c4_witness :
    eqObj heapCyc 1 0 1 [(0, 1)] = (true, [(0, 1)]) ∧
    (eqObj heapCyc 3 0 1 []).2 = [] ∧
    ((eqObj heapCyc 1 0 1 []).1 = true ↔
      ((⟨0, [("p", .prim 1), ("buddy", .ref 1)]⟩ : HObj).tag =
         (⟨0, [("p", .prim 1), ("buddy", .ref 0)]⟩ : HObj).tag ∧
       itemsAgree (fun i' j' m => eqObj heapCyc 0 i' j' m)
         (⟨0, [("p", .prim 1), ("buddy", .ref 0)]⟩ : HObj).data
         (⟨0, [("p", .prim 1), ("buddy", .ref 1)]⟩ : HObj).data [(0, 1)])) := by
  have h := c4_cycle_safe_equality
  refine ⟨?_, h.2.1 heapCyc 3 0 1 [], ?_⟩
  · exact h.1 heapCyc 0 0 1 [(0, 1)]
      ⟨0, [("p", .prim 1), ("buddy", .ref 1)]⟩
      ⟨0, [("p", .prim 1), ("buddy", .ref 0)]⟩ rfl rfl rfl (by decide)
  · exact h.2.2.1 heapCyc 0 0 1 []
      ⟨0, [("p", .prim 1), ("buddy", .ref 1)]⟩
      ⟨0, [("p", .prim 1), ("buddy", .ref 0)]⟩
      (by decide) rfl rfl (by simp) (by decide) (by decide)

end EqCmp

namespace Mock

/-- Claim C5 (code bug): the field loop does skip every field whose
declared type references a schema already in the visited memo, and on the
self-referential schema it builds exactly the finite values mapping the
claim describes (the self-referential branch omitted, the plain field
kept) — but `get_mock_object` ends with `return cls(values)`
(models.py:299), whose `Model.__init__` raises `NameError` through the
broken `_convert`, so every mock call yields an exception rather than the
claimed finite result: both the direct self-reference and the mutual
reference evaluate to the `NameError`, and in general no call of
`getMockObject` ever returns a value. -/
theorem c5_mock_code_bug :
    (∀ (env : MockEnv) (fuel : Nat) (memo : List Nat) (cid : Nat)
       (ov : List (String × MockVal)),
      ∃ e, (getMockObject env fuel memo cid ov).1 = Except.error e) ∧
    mockLoopRun (fun m c => getMockObject envSelf 0 m c []) []
        [("child", ⟨some 0, 0⟩), ("x", ⟨none, 7⟩)] [0] =
      (.ok [("x", MockVal.leaf 7)], [0]) ∧
    getMockObject envSelf 1 [] 0 [] =
      (.error (ModelOps.PyExc.nameError "kw"), [0]) ∧
    getMockObject envMutual 2 [] 0 [] =
      (.error (ModelOps.PyExc.nameError "kw"), [1, 0]) := by
  refine ⟨?_, rfl, rfl, rfl⟩
  intro env fuel memo cid ov
  cases fuel with
  | zero => exact ⟨.outOfModel, rfl⟩
  | succ fuel =>
    simp only [getMockObject]
    cases henv : env.get? cid with
    | none => exact ⟨.outOfModel, rfl⟩
    | some fields =>
      dsimp only
      cases hp : (mockLoopRun (fun m c => getMockObject env fuel m c []) ov fields
          (if cid ∈ memo then memo else cid :: memo)).1 with
      | error e =>
        exact ⟨e, rfl⟩
      | ok vs =>
        exact ⟨.nameError "kw", rfl⟩

end Mock
